import Mathlib

/-!
Verification of the bitcoin transaction decoder and its display-side
classifiers.  The data model follows the specification's §3 data model;
the classifiers `decode_witness_item`, `is_ephemeral_anchor` and
`detect_input_type` are direct translations of the functions of the same
names in `src/main.rs`.  The byte-level decoder, hex layer and size
metrics are modelled from the specification (§4.1–§4.3, §6), since the
corresponding code lives in external crates consumed by `src/lib.rs`.
Bytes are modelled as `Nat` (with range side conditions where overflow
matters).
-/

/-- Spec §3: outpoint — 32-byte previous txid plus output index. -/
structure OutPoint where
  txid : List Nat
  vout : Nat
deriving DecidableEq, Repr

/-- Spec §3: transaction input. -/
structure TxIn where
  previous_output : OutPoint
  script_sig : List Nat
  sequence : Nat
  witness : List (List Nat)
deriving DecidableEq, Repr

/-- Spec §3: transaction output. -/
structure TxOut where
  value : Nat
  script_pubkey : List Nat
deriving DecidableEq, Repr

/-- Spec §3: decoded transaction, with the derived `has_witness` flag. -/
structure Transaction where
  version : Nat
  inputs : List TxIn
  outputs : List TxOut
  lock_time : Nat
  has_witness : Bool
deriving DecidableEq, Repr

/-- Translation of `decode_witness_item` from `src/main.rs`: classify a
single witness stack item by its byte length. -/
def decode_witness_item (witness : List Nat) : String :=
  let len := witness.length
  if len = 0 then
    "Empty witness"
  else if len ≤ 75 then
    if len = 33 ∨ len = 65 then
      "Public Key"
    else if 70 ≤ len ∧ len ≤ 73 then
      "Signature (DER)"
    else if len = 64 then
      "Signature (Schnorr)"
    else
      s!"Data ({len} bytes)"
  else
    if len > 100 then
      s!"Script or Data ({len} bytes)"
    else
      s!"Data ({len} bytes)"

/-- Translation of `is_ephemeral_anchor` from `src/main.rs`: a
Pay-to-Anchor output is `OP_1` (0x51), a 2-byte push (0x02), bytes
`0x4e 0x73`. -/
def is_ephemeral_anchor (output : TxOut) : Bool :=
  let script_bytes := output.script_pubkey
  script_bytes.length == 4
    && script_bytes.getD 0 0 == 0x51
    && script_bytes.getD 1 0 == 0x02
    && script_bytes.getD 2 0 == 0x4e
    && script_bytes.getD 3 0 == 0x73

/-- Translation of `detect_input_type` from `src/main.rs`: ordered
heuristic classification of an input from its witness stack shape, else
from its script-sig length. -/
def detect_input_type (input : TxIn) : String :=
  if !input.witness.isEmpty then
    let witness_count := input.witness.length
    if witness_count == 2
        && (let pubkey_len := ((input.witness.get? 1).map List.length).getD 0
            pubkey_len == 33 || pubkey_len == 65) then
      "P2WPKH (Pay-to-Witness-Public-Key-Hash)"
    else if witness_count ≥ 2
        && ((input.witness.getLast?.map List.length).getD 0 > 33) then
      "P2WSH (Pay-to-Witness-Script-Hash)"
    else if witness_count == 1
        && (let sig_len := ((input.witness.get? 0).map List.length).getD 0
            sig_len == 64 || sig_len == 65) then
      "P2TR (Pay-to-Taproot) - Key Path Spend"
    else if witness_count ≥ 2
        && (match input.witness.getLast? with
            | some last_item =>
                !last_item.isEmpty
                  && (last_item.headD 0 == 0xc0 || last_item.headD 0 == 0xc1)
            | none => false) then
      "P2TR (Pay-to-Taproot) - Script Path Spend"
    else
      "SegWit (Unknown type)"
  else if !input.script_sig.isEmpty then
    let script_len := input.script_sig.length
    if script_len > 100 && script_len < 150 then
      "P2PKH (Pay-to-Public-Key-Hash) - Legacy"
    else if script_len > 0 then
      "P2SH or Legacy"
    else
      "Unknown"
  else
    "Unknown"

/-- Modelled from the spec (§7): decode failure kinds of the binary
transaction decoder, whose implementation lives in an external crate. -/
inductive DecodeError where
  | TruncatedInput
  | UnsupportedEncoding
  | TrailingData
deriving DecidableEq, Repr

/-- Modelled from the spec (§6): errors of the decode entry point — hex
failures are distinguished from binary decode failures. -/
inductive TxError where
  | InvalidHex
  | DecodeFail (e : DecodeError)
deriving DecidableEq, Repr

/-- A byte-level decoder: consumes a prefix of the remaining buffer and
returns a value plus the rest, or a decode error (spec §9: cursor
threaded explicitly). -/
def Decoder (α : Type) : Type :=
  List Nat → Except DecodeError (α × List Nat)

/-- Decoder that consumes nothing. -/
def dpure {α : Type} (a : α) : Decoder α := fun bs => .ok (a, bs)

/-- Sequencing of decoders. -/
def dbind {α β : Type} (p : Decoder α) (f : α → Decoder β) : Decoder β :=
  fun bs =>
    match p bs with
    | .ok (a, rest) => f a rest
    | .error e => .error e

/-- Modelled from the spec (§9 ByteCursor): read `n` raw bytes,
`TruncatedInput` if fewer remain. -/
def readBytes (n : Nat) : Decoder (List Nat) :=
  fun bs =>
    if n ≤ bs.length then .ok (bs.take n, bs.drop n)
    else .error .TruncatedInput

/-- Read a single byte. -/
def readByte : Decoder Nat :=
  fun bs =>
    match bs with
    | [] => .error .TruncatedInput
    | b :: rest => .ok (b, rest)

/-- Value of a little-endian byte sequence. -/
def leVal : List Nat → Nat
  | [] => 0
  | b :: rest => b + 256 * leVal rest

/-- Modelled from the spec (§4.2): read an `n`-byte little-endian field. -/
def readLE (n : Nat) : Decoder Nat :=
  dbind (readBytes n) fun l => dpure (leVal l)

/-- Modelled from the spec (§4.1 VarIntCodec): compact variable-length
integer; non-minimal encodings are accepted (explicit leniency). -/
def readVarInt : Decoder Nat :=
  dbind readByte fun b =>
    if b < 0xfd then dpure b
    else if b = 0xfd then readLE 2
    else if b = 0xfe then readLE 4
    else readLE 8

/-- Modelled from the spec (§4.2 step 2): detect the segwit marker/flag
pair.  A `0x00` first byte demands flag `0x01` (witness present); any
other flag byte after `0x00` is `UnsupportedEncoding`; a non-zero first
byte means no witness section and the cursor is left unmoved. -/
def readMarker : Decoder Bool :=
  fun bs =>
    match bs with
    | [] => .ok (false, [])
    | b :: rest =>
        if b = 0x00 then
          match rest with
          | [] => .error .TruncatedInput
          | f :: rest2 =>
              if f = 0x01 then .ok (true, rest2)
              else .error .UnsupportedEncoding
        else .ok (false, b :: rest)

/-- Run a decoder a fixed number of times, collecting the results. -/
def decodeList {α : Type} : Nat → Decoder α → Decoder (List α)
  | 0, _ => dpure []
  | n + 1, p =>
      dbind p fun x =>
        dbind (decodeList n p) fun xs =>
          dpure (x :: xs)

/-- Modelled from the spec (§4.2 step 5): one witness item —
length-prefixed raw bytes. -/
def readWitnessItem : Decoder (List Nat) :=
  dbind readVarInt fun n => readBytes n

/-- Modelled from the spec (§4.2 step 5): one input's witness stack —
item count, then that many items. -/
def readWitnessStack : Decoder (List (List Nat)) :=
  dbind readVarInt fun n => decodeList n readWitnessItem

/-- Modelled from the spec (§4.2 step 3): one input without witness
data — txid, output index, length-prefixed script-sig, sequence. -/
def decodeInput : Decoder TxIn :=
  dbind (readBytes 32) fun txid =>
  dbind (readLE 4) fun vout =>
  dbind readVarInt fun slen =>
  dbind (readBytes slen) fun scr =>
  dbind (readLE 4) fun seq =>
  dpure ⟨⟨txid, vout⟩, scr, seq, []⟩

/-- Modelled from the spec (§4.2 step 4): one output — value, then
length-prefixed script-pubkey. -/
def decodeOutput : Decoder TxOut :=
  dbind (readLE 8) fun v =>
  dbind readVarInt fun slen =>
  dbind (readBytes slen) fun spk =>
  dpure ⟨v, spk⟩

/-- Attach witness wstacks positionally to inputs (spec §4.2 step 5). -/
def attachWitness (ins : List TxIn) (wstacks : List (List (List Nat))) : List TxIn :=
  List.zipWith (fun i w => { i with witness := w }) ins wstacks

/-- Modelled from the spec (§4.2 steps 3–6): body of the decode after
version and marker detection. -/
def decodeBody (version : Nat) (segwit : Bool) : Decoder Transaction :=
  dbind readVarInt fun nin =>
  dbind (decodeList nin decodeInput) fun ins =>
  dbind readVarInt fun nout =>
  dbind (decodeList nout decodeOutput) fun outs =>
  if segwit then
    dbind (decodeList nin readWitnessStack) fun wstacks =>
    dbind (readLE 4) fun lt =>
    dpure ⟨version, attachWitness ins wstacks, outs, lt, true⟩
  else
    dbind (readLE 4) fun lt =>
    dpure ⟨version, ins, outs, lt, false⟩

/-- Modelled from the spec (§4.2): the whole transaction grammar. -/
def decodeTxCore : Decoder Transaction :=
  dbind (readLE 4) fun v =>
  dbind readMarker fun seg =>
  decodeBody v seg

/-- Modelled from the spec (§4.2 step 7): run the grammar on a byte
buffer and demand exact consumption. -/
def decodeTx (bs : List Nat) : Except DecodeError Transaction :=
  match decodeTxCore bs with
  | .ok (tx, []) => .ok tx
  | .ok (_, _ :: _) => .error .TrailingData
  | .error e => .error e

/-- `n`-byte little-endian encoding of a value (truncating above
`256 ^ n`). -/
def leBytes : Nat → Nat → List Nat
  | 0, _ => []
  | n + 1, v => (v % 256) :: leBytes n (v / 256)

/-- Modelled from the spec (§8): minimal-form compact variable-length
integer encoding. -/
def encodeVarInt (n : Nat) : List Nat :=
  if n < 0xfd then [n]
  else if n < 2 ^ 16 then 0xfd :: leBytes 2 n
  else if n < 2 ^ 32 then 0xfe :: leBytes 4 n
  else 0xff :: leBytes 8 n

/-- Serialization of one input, witness excluded (spec §4.3). -/
def encodeInput (i : TxIn) : List Nat :=
  i.previous_output.txid
    ++ leBytes 4 i.previous_output.vout
    ++ encodeVarInt i.script_sig.length
    ++ i.script_sig
    ++ leBytes 4 i.sequence

/-- Serialization of one output (spec §4.3). -/
def encodeOutput (o : TxOut) : List Nat :=
  leBytes 8 o.value
    ++ encodeVarInt o.script_pubkey.length
    ++ o.script_pubkey

/-- Serialization of one input's witness stack (spec §4.2 step 5). -/
def encodeWitnessStack (ws : List (List Nat)) : List Nat :=
  encodeVarInt ws.length
    ++ (ws.map (fun item => encodeVarInt item.length ++ item)).flatten

/-- Modelled from the spec (§4.3): serialization without marker/flag and
without witness data. -/
def encodeTxBase (tx : Transaction) : List Nat :=
  leBytes 4 tx.version
    ++ encodeVarInt tx.inputs.length
    ++ (tx.inputs.map encodeInput).flatten
    ++ encodeVarInt tx.outputs.length
    ++ (tx.outputs.map encodeOutput).flatten
    ++ leBytes 4 tx.lock_time

/-- Modelled from the spec (§4.3): full serialization — with marker/flag
and witness stacks when `has_witness` is set, the base form otherwise. -/
def encodeTx (tx : Transaction) : List Nat :=
  if tx.has_witness then
    leBytes 4 tx.version
      ++ [0x00, 0x01]
      ++ encodeVarInt tx.inputs.length
      ++ (tx.inputs.map encodeInput).flatten
      ++ encodeVarInt tx.outputs.length
      ++ (tx.outputs.map encodeOutput).flatten
      ++ (tx.inputs.map (fun i => encodeWitnessStack i.witness)).flatten
      ++ leBytes 4 tx.lock_time
  else
    encodeTxBase tx

/-- Modelled from the spec (§4.3 SizeMetrics): serialized length without
marker/flag/witness. -/
def base_size (tx : Transaction) : Nat := (encodeTxBase tx).length

/-- Modelled from the spec (§4.3 SizeMetrics): full serialized length. -/
def total_size (tx : Transaction) : Nat := (encodeTx tx).length

/-- Modelled from the spec (§4.3 SizeMetrics): weight units. -/
def weight (tx : Transaction) : Nat := base_size tx * 3 + total_size tx

/-- Modelled from the spec (§4.3 SizeMetrics): virtual bytes,
`ceil(weight / 4)`. -/
def virtual_size (tx : Transaction) : Nat := (weight tx + 3) / 4

/-- Modelled from the spec (§6): whitespace characters trimmed from the
input string before hex decoding. -/
def isWs (c : Char) : Bool :=
  c = ' ' || c = '\t' || c = '\n' || c = '\r'

/-- Modelled from the spec (§6): strip leading and trailing whitespace. -/
def trimChars (l : List Char) : List Char :=
  ((l.dropWhile isWs).reverse.dropWhile isWs).reverse

/-- Modelled from the spec (§6): value of one hex digit, accepted
case-insensitively. -/
def hexDigitVal (c : Char) : Option Nat :=
  if '0' ≤ c ∧ c ≤ '9' then some (c.toNat - '0'.toNat)
  else if 'a' ≤ c ∧ c ≤ 'f' then some (c.toNat - 'a'.toNat + 10)
  else if 'A' ≤ c ∧ c ≤ 'F' then some (c.toNat - 'A'.toNat + 10)
  else none

/-- Modelled from the spec (§6): hex text to bytes — pairs of hex
digits, even total length, else invalid. -/
def hexPairs : List Char → Option (List Nat)
  | [] => some []
  | [_] => none
  | c1 :: c2 :: rest =>
      match hexDigitVal c1, hexDigitVal c2, hexPairs rest with
      | some h, some l, some bs => some ((16 * h + l) :: bs)
      | _, _, _ => none

/-- Modelled from the spec (§6): the decode entry point of `src/lib.rs`
on character lists — trim, hex-decode (`InvalidHex` on failure), then
run the binary decoder. -/
def decode_transaction_chars (l : List Char) : Except TxError Transaction :=
  match hexPairs (trimChars l) with
  | none => .error .InvalidHex
  | some bs =>
      match decodeTx bs with
      | .ok tx => .ok tx
      | .error e => .error (.DecodeFail e)

/-- The decode entry point `decode_transaction` of `src/lib.rs`. -/
def decode_transaction (s : String) : Except TxError Transaction :=
  decode_transaction_chars s.data

/-- The `unwrap_or(0)` length of an optionally present witness item
equals the length of the item defaulted to the empty list. -/
theorem optLen_eq_getD (l : List (List Nat)) (i : Nat) :
    ((l.get? i).map List.length).getD 0 = (l.getD i []).length := by
  cases h : l[i]? <;> simp [List.getD, List.get?_eq_getElem?, h]

/-- Same bridging for the last stack item. -/
theorem optLen_last_eq_getLastD (l : List (List Nat)) :
    ((l.getLast?.map List.length).getD 0) = (l.getLastD []).length := by
  cases h : l.getLast? <;>
    simp [List.getLastD_eq_getLast?, h]

/-- C1: the decode entry point fails on well-formed but structurally
short hex `"deadbeef"` with a decode error (not `InvalidHex`), and on
the non-hex string `"not_valid_hex"` with `InvalidHex`; both are error
values, not transactions. -/
theorem decode_transaction_error_kinds :
    decode_transaction "deadbeef" = .error (.DecodeFail .TruncatedInput) ∧
    decode_transaction "not_valid_hex" = .error .InvalidHex := by
  constructor <;> rfl

/-- C2: `is_ephemeral_anchor` holds exactly on the 4-byte script
`0x51 0x02 0x4e 0x73`, for any value field; any other length or any
differing byte yields `false`. -/
theorem is_ephemeral_anchor_iff (o : TxOut) :
    is_ephemeral_anchor o = true ↔ o.script_pubkey = [0x51, 0x02, 0x4e, 0x73] := by
  obtain ⟨v, spk⟩ := o
  match spk with
  | [] => simp [is_ephemeral_anchor]
  | [a] => simp [is_ephemeral_anchor]
  | [a, b] => simp [is_ephemeral_anchor]
  | [a, b, c] => simp [is_ephemeral_anchor]
  | [a, b, c, d] =>
      simp only [is_ephemeral_anchor, List.getD, List.get?]
      simp [and_assoc]
  | a :: b :: c :: d :: e :: t =>
      simp [is_ephemeral_anchor]

/-- C5: `decode_witness_item` depends only on the item's length, with
the label table of the specification (empty / public key / DER
signature / fixed-width signature / script-or-data above 100 bytes /
data otherwise, including 76–100). -/
theorem decode_witness_item_spec (w : List Nat) :
    decode_witness_item w =
      if w.length = 0 then "Empty witness"
      else if w.length = 33 ∨ w.length = 65 then "Public Key"
      else if 70 ≤ w.length ∧ w.length ≤ 73 then "Signature (DER)"
      else if w.length = 64 then "Signature (Schnorr)"
      else if w.length > 100 then s!"Script or Data ({w.length} bytes)"
      else s!"Data ({w.length} bytes)" := by
  unfold decode_witness_item
  dsimp only
  split_ifs <;> first | rfl | omega

/-- Shared shape lemma: on a non-empty witness stack,
`detect_input_type` equals the five ordered rules written as an
if-chain over stack shape. -/
theorem detect_input_type_shape (input : TxIn) (hw : input.witness ≠ []) :
    detect_input_type input =
      if input.witness.length = 2 ∧
          ((input.witness.getD 1 []).length = 33 ∨ (input.witness.getD 1 []).length = 65) then
        "P2WPKH (Pay-to-Witness-Public-Key-Hash)"
      else if 2 ≤ input.witness.length ∧ 33 < (input.witness.getLastD []).length then
        "P2WSH (Pay-to-Witness-Script-Hash)"
      else if input.witness.length = 1 ∧
          ((input.witness.getD 0 []).length = 64 ∨ (input.witness.getD 0 []).length = 65) then
        "P2TR (Pay-to-Taproot) - Key Path Spend"
      else if 2 ≤ input.witness.length ∧
          ((input.witness.getLastD []).headD 0 = 0xc0 ∨
            (input.witness.getLastD []).headD 0 = 0xc1) then
        "P2TR (Pay-to-Taproot) - Script Path Spend"
      else "SegWit (Unknown type)" := by
  have hne : input.witness.isEmpty = false := by
    simp [List.isEmpty_iff, hw]
  unfold detect_input_type
  rw [hne]
  dsimp only [Bool.not_false, if_true]
  rw [optLen_eq_getD, optLen_eq_getD, optLen_last_eq_getLastD]
  cases hlast : input.witness.getLast? with
  | none =>
      exact absurd (List.getLast?_eq_none_iff.mp hlast) hw
  | some last =>
      have hD : input.witness.getLastD [] = last := by
        rw [List.getLastD_eq_getLast?, hlast, Option.getD_some]
      rw [hD]
      cases last with
      | nil =>
          simp only [List.isEmpty_nil, Bool.not_true, Bool.and_eq_true, Bool.or_eq_true,
            beq_iff_eq, decide_eq_true_eq, ge_iff_le, gt_iff_lt, List.length_nil,
            List.headD_nil, Bool.false_and, Bool.and_false, Bool.false_eq_true, if_false]
          simp
      | cons hd tl =>
          simp only [List.isEmpty_cons, Bool.not_false, Bool.true_and, Bool.and_eq_true,
            Bool.or_eq_true, beq_iff_eq, decide_eq_true_eq, ge_iff_le, gt_iff_lt,
            List.length_cons, List.headD_cons]
          simp

/-- C3: on a non-empty witness stack, `detect_input_type` applies the
five ordered rules of the specification, the first match winning:
2-item pubkey-hash shape, then long-last-item script-hash, then
single-item taproot key path, then control-block taproot script path,
then the segwit-unknown fallback. -/
theorem detect_input_type_witness_rules (input : TxIn) (hw : input.witness ≠ []) :
    detect_input_type input =
      if input.witness.length = 2 ∧
          ((input.witness.getD 1 []).length = 33 ∨ (input.witness.getD 1 []).length = 65) then
        "P2WPKH (Pay-to-Witness-Public-Key-Hash)"
      else if 2 ≤ input.witness.length ∧ 33 < (input.witness.getLastD []).length then
        "P2WSH (Pay-to-Witness-Script-Hash)"
      else if input.witness.length = 1 ∧
          ((input.witness.getD 0 []).length = 64 ∨ (input.witness.getD 0 []).length = 65) then
        "P2TR (Pay-to-Taproot) - Key Path Spend"
      else if 2 ≤ input.witness.length ∧
          ((input.witness.getLastD []).headD 0 = 0xc0 ∨
            (input.witness.getLastD []).headD 0 = 0xc1) then
        "P2TR (Pay-to-Taproot) - Script Path Spend"
      else "SegWit (Unknown type)" :=
  detect_input_type_shape input hw

/-- C4: on an empty witness stack, `detect_input_type` labels a
script-sig of length strictly between 100 and 150 as legacy
pay-to-public-key-hash, any other non-empty script-sig as
pay-to-script-hash-or-legacy, and an empty script-sig as unknown. -/
theorem detect_input_type_legacy_rules (input : TxIn) (hw : input.witness = []) :
    detect_input_type input =
      if input.script_sig = [] then "Unknown"
      else if 100 < input.script_sig.length ∧ input.script_sig.length < 150 then
        "P2PKH (Pay-to-Public-Key-Hash) - Legacy"
      else "P2SH or Legacy" := by
  unfold detect_input_type
  rw [hw]
  dsimp only [List.isEmpty_nil, Bool.not_true, Bool.false_eq_true, if_false]
  split_ifs <;> simp_all

/-- C10: `detect_input_type` is total even when the taproot
control-block test cannot inspect a first byte: a stack of at least two
items ending in the empty item is classified as segwit-unknown, the
first-byte access being guarded by the emptiness check. -/
theorem detect_input_type_empty_last_item (input : TxIn)
    (h2 : 2 ≤ input.witness.length)
    (hlast : input.witness.getLast? = some []) :
    detect_input_type input = "SegWit (Unknown type)" := by
  have hw : input.witness ≠ [] := by
    intro h
    rw [h] at h2
    simp at h2
  have hD : input.witness.getLastD [] = [] := by
    rw [List.getLastD_eq_getLast?, hlast, Option.getD_some]
  have hsecond : input.witness.length = 2 → input.witness.getD 1 [] = [] := by
    intro hlen
    have h1 : input.witness.getLast? = input.witness[1]? := by
      rw [List.getLast?_eq_getElem?, hlen]
    have h2 : input.witness[1]? = some [] := by rw [← h1, hlast]
    simp [List.getD, List.get?_eq_getElem?, h2]
  rw [detect_input_type_shape input hw]
  split_ifs with g1 g2 g3 g4
  · rw [hsecond g1.1] at g1
    simp at g1
  · rw [hD] at g2
    simp at g2
  · omega
  · rw [hD] at g4
    simp at g4
  · rfl

/-- A 2-item witness stack ending in a 33-byte item (P2WPKH shape). -/
def exInputP2wpkh : TxIn :=
  ⟨⟨List.replicate 32 0, 0⟩, [], 0, [List.replicate 72 0, List.replicate 33 2]⟩

theorem detect_input_type_witness_rules_witness :
    detect_input_type exInputP2wpkh = "P2WPKH (Pay-to-Witness-Public-Key-Hash)" :=
  (detect_input_type_witness_rules exInputP2wpkh (by decide)).trans (by decide)

/-- Empty witness, 107-byte script-sig (legacy P2PKH shape). -/
def exInputLegacy : TxIn :=
  ⟨⟨List.replicate 32 0, 0⟩, List.replicate 107 0, 0, []⟩

theorem detect_input_type_legacy_rules_witness :
    detect_input_type exInputLegacy = "P2PKH (Pay-to-Public-Key-Hash) - Legacy" :=
  (detect_input_type_legacy_rules exInputLegacy rfl).trans (by decide)

/-- Two witness items, the last one empty. -/
def exInputEmptyLast : TxIn :=
  ⟨⟨List.replicate 32 0, 0⟩, [], 0, [[1, 2, 3], []]⟩

theorem detect_input_type_empty_last_item_witness :
    detect_input_type exInputEmptyLast = "SegWit (Unknown type)" :=
  detect_input_type_empty_last_item exInputEmptyLast (by decide) (by decide)

/-- All bytes of a buffer are in range. -/
abbrev AllLt (l : List Nat) : Prop := ∀ b ∈ l, b < 256

/-- Extension law: a successful parse is unaffected by appending bytes
after the part it consumed. -/
def ExtOk {α : Type} (p : Decoder α) : Prop :=
  ∀ xs ys a rs, p xs = .ok (a, rs) → p (xs ++ ys) = .ok (a, rs ++ ys)

/-- Suffix law: a parser never returns a rest longer than its input. -/
def SuffOk {α : Type} (p : Decoder α) : Prop :=
  ∀ xs a rs, p xs = .ok (a, rs) → rs.length ≤ xs.length

/-- Cut law: removing the final byte of the input either leaves a
successful parse unchanged (the byte was part of the rest) or turns it
into a truncation failure. -/
def CutOk {α : Type} (p : Decoder α) : Prop :=
  ∀ xs b a rs', p (xs ++ [b]) = .ok (a, rs') →
    (∃ rs, rs' = rs ++ [b] ∧ p xs = .ok (a, rs)) ∨
    (rs' = [] ∧ p xs = .error .TruncatedInput)

theorem extOk_dpure {α : Type} (a : α) : ExtOk (dpure a) := by
  intro xs ys a' rs h
  simp only [dpure, Except.ok.injEq, Prod.mk.injEq] at h ⊢
  exact ⟨h.1, by rw [h.2]⟩

theorem suffOk_dpure {α : Type} (a : α) : SuffOk (dpure a) := by
  intro xs a' rs h
  simp only [dpure, Except.ok.injEq, Prod.mk.injEq] at h
  rw [← h.2]

theorem cutOk_dpure {α : Type} (a : α) : CutOk (dpure a) := by
  intro xs b a' rs' h
  simp only [dpure, Except.ok.injEq, Prod.mk.injEq] at h
  exact Or.inl ⟨xs, by rw [← h.2], by rw [h.1]; rfl⟩

theorem extOk_dbind {α β : Type} {p : Decoder α} {f : α → Decoder β}
    (hp : ExtOk p) (hf : ∀ a, ExtOk (f a)) : ExtOk (dbind p f) := by
  intro xs ys b rs h
  unfold dbind at h ⊢
  cases hpx : p xs with
  | error e => rw [hpx] at h; exact absurd h (by simp)
  | ok ar =>
      obtain ⟨a, m⟩ := ar
      rw [hpx] at h
      rw [hp xs ys a m hpx]
      exact hf a m ys b rs h

theorem suffOk_dbind {α β : Type} {p : Decoder α} {f : α → Decoder β}
    (hp : SuffOk p) (hf : ∀ a, SuffOk (f a)) : SuffOk (dbind p f) := by
  intro xs b rs h
  unfold dbind at h
  cases hpx : p xs with
  | error e => rw [hpx] at h; exact absurd h (by simp)
  | ok ar =>
      obtain ⟨a, m⟩ := ar
      rw [hpx] at h
      exact le_trans (hf a m b rs h) (hp xs a m hpx)

theorem cutOk_dbind {α β : Type} {p : Decoder α} {f : α → Decoder β}
    (hp : CutOk p) (hf : ∀ a, CutOk (f a)) (hs : ∀ a, SuffOk (f a)) :
    CutOk (dbind p f) := by
  intro xs b c rs' h
  unfold dbind at h ⊢
  cases hpx : p (xs ++ [b]) with
  | error e => rw [hpx] at h; exact absurd h (by simp)
  | ok ar =>
      obtain ⟨a, m'⟩ := ar
      rw [hpx] at h
      rcases hp xs b a m' hpx with ⟨m, hm, hpxs⟩ | ⟨hm, hpxs⟩
      · subst hm
        rw [hpxs]
        rcases hf a m b c rs' h with ⟨rs, hrs, hfm⟩ | ⟨hrs, hfm⟩
        · exact Or.inl ⟨rs, hrs, hfm⟩
        · exact Or.inr ⟨hrs, hfm⟩
      · subst hm
        have : rs'.length ≤ 0 := hs a [] c rs' h
        have hrs : rs' = [] := List.length_eq_zero.mp (Nat.le_zero.mp this)
        rw [hpxs]
        exact Or.inr ⟨hrs, rfl⟩

theorem extOk_readBytes (n : Nat) : ExtOk (readBytes n) := by
  intro xs ys a rs h
  unfold readBytes at h ⊢
  split at h
  · rename_i hle
    simp only [Except.ok.injEq, Prod.mk.injEq] at h
    obtain ⟨ha, hrs⟩ := h
    rw [if_pos (by simp; omega)]
    subst ha
    subst hrs
    simp only [Except.ok.injEq, Prod.mk.injEq]
    constructor
    · rw [List.take_append_eq_append_take, Nat.sub_eq_zero_of_le hle,
        List.take_zero, List.append_nil]
    · rw [List.drop_append_eq_append_drop, Nat.sub_eq_zero_of_le hle,
        List.drop_zero]
  · exact absurd h (by simp)

theorem suffOk_readBytes (n : Nat) : SuffOk (readBytes n) := by
  intro xs a rs h
  unfold readBytes at h
  split at h
  · simp only [Except.ok.injEq, Prod.mk.injEq] at h
    rw [← h.2]
    simp
  · exact absurd h (by simp)

theorem cutOk_readBytes (n : Nat) : CutOk (readBytes n) := by
  intro xs b a rs' h
  unfold readBytes at h ⊢
  split at h
  · rename_i hle
    simp only [List.length_append, List.length_singleton] at hle
    simp only [Except.ok.injEq, Prod.mk.injEq] at h
    obtain ⟨ha, hrs⟩ := h
    by_cases hn : n ≤ xs.length
    · refine Or.inl ⟨xs.drop n, ?_, ?_⟩
      · rw [← hrs, List.drop_append_eq_append_drop, Nat.sub_eq_zero_of_le hn,
          List.drop_zero]
      · rw [if_pos hn, ← ha, List.take_append_eq_append_take,
          Nat.sub_eq_zero_of_le hn, List.take_zero, List.append_nil]
    · refine Or.inr ⟨?_, if_neg hn⟩
      have hxn : n = xs.length + 1 := by omega
      rw [← hrs, hxn]
      rw [List.drop_append_eq_append_drop]
      simp
  · exact absurd h (by simp)

theorem extOk_readByte : ExtOk readByte := by
  intro xs ys a rs h
  cases xs with
  | nil => exact absurd h (by simp [readByte])
  | cons x xs' =>
      simp only [readByte, Except.ok.injEq, Prod.mk.injEq] at h
      simp only [List.cons_append, readByte, Except.ok.injEq, Prod.mk.injEq]
      exact ⟨h.1, by rw [h.2]⟩

theorem suffOk_readByte : SuffOk readByte := by
  intro xs a rs h
  cases xs with
  | nil => exact absurd h (by simp [readByte])
  | cons x xs' =>
      simp only [readByte, Except.ok.injEq, Prod.mk.injEq] at h
      rw [← h.2]
      simp

theorem cutOk_readByte : CutOk readByte := by
  intro xs b a rs' h
  cases xs with
  | nil =>
      simp only [List.nil_append, readByte, Except.ok.injEq, Prod.mk.injEq] at h
      exact Or.inr ⟨h.2.symm, rfl⟩
  | cons x xs' =>
      simp only [List.cons_append, readByte, Except.ok.injEq, Prod.mk.injEq] at h
      exact Or.inl ⟨xs', h.2.symm, by rw [h.1]; rfl⟩

theorem extOk_readLE (n : Nat) : ExtOk (readLE n) :=
  extOk_dbind (extOk_readBytes n) fun _ => extOk_dpure _

theorem suffOk_readLE (n : Nat) : SuffOk (readLE n) :=
  suffOk_dbind (suffOk_readBytes n) fun _ => suffOk_dpure _

theorem cutOk_readLE (n : Nat) : CutOk (readLE n) :=
  cutOk_dbind (cutOk_readBytes n) (fun _ => cutOk_dpure _) fun _ => suffOk_dpure _

theorem extOk_readVarInt : ExtOk readVarInt := by
  apply extOk_dbind extOk_readByte
  intro b
  split_ifs <;> first | exact extOk_dpure _ | exact extOk_readLE _

theorem suffOk_readVarInt : SuffOk readVarInt := by
  apply suffOk_dbind suffOk_readByte
  intro b
  split_ifs <;> first | exact suffOk_dpure _ | exact suffOk_readLE _

theorem cutOk_readVarInt : CutOk readVarInt := by
  apply cutOk_dbind cutOk_readByte
  · intro b
    split_ifs <;> first | exact cutOk_dpure _ | exact cutOk_readLE _
  · intro b
    split_ifs <;> first | exact suffOk_dpure _ | exact suffOk_readLE _

theorem extOk_decodeList {α : Type} (p : Decoder α) (hp : ExtOk p) (n : Nat) :
    ExtOk (decodeList n p) := by
  induction n with
  | zero => exact extOk_dpure []
  | succ n ih =>
      exact extOk_dbind hp fun x => extOk_dbind ih fun xs => extOk_dpure _

theorem suffOk_decodeList {α : Type} (p : Decoder α) (hp : SuffOk p) (n : Nat) :
    SuffOk (decodeList n p) := by
  induction n with
  | zero => exact suffOk_dpure []
  | succ n ih =>
      exact suffOk_dbind hp fun x => suffOk_dbind ih fun xs => suffOk_dpure _

theorem cutOk_decodeList {α : Type} (p : Decoder α) (hpc : CutOk p) (hps : SuffOk p)
    (n : Nat) : CutOk (decodeList n p) := by
  induction n with
  | zero => exact cutOk_dpure []
  | succ n ih =>
      exact cutOk_dbind hpc
        (fun x => cutOk_dbind ih (fun xs => cutOk_dpure _) fun xs => suffOk_dpure _)
        fun x => suffOk_dbind (suffOk_decodeList p hps n) fun xs => suffOk_dpure _

theorem extOk_readWitnessItem : ExtOk readWitnessItem :=
  extOk_dbind extOk_readVarInt fun n => extOk_readBytes n

theorem suffOk_readWitnessItem : SuffOk readWitnessItem :=
  suffOk_dbind suffOk_readVarInt fun n => suffOk_readBytes n

theorem cutOk_readWitnessItem : CutOk readWitnessItem :=
  cutOk_dbind cutOk_readVarInt (fun n => cutOk_readBytes n) fun n => suffOk_readBytes n

theorem extOk_readWitnessStack : ExtOk readWitnessStack :=
  extOk_dbind extOk_readVarInt fun n => extOk_decodeList _ extOk_readWitnessItem n

theorem suffOk_readWitnessStack : SuffOk readWitnessStack :=
  suffOk_dbind suffOk_readVarInt fun n => suffOk_decodeList _ suffOk_readWitnessItem n

theorem cutOk_readWitnessStack : CutOk readWitnessStack :=
  cutOk_dbind cutOk_readVarInt
    (fun n => cutOk_decodeList _ cutOk_readWitnessItem suffOk_readWitnessItem n)
    fun n => suffOk_decodeList _ suffOk_readWitnessItem n

theorem extOk_decodeInput : ExtOk decodeInput :=
  extOk_dbind (extOk_readBytes 32) fun _ =>
  extOk_dbind (extOk_readLE 4) fun _ =>
  extOk_dbind extOk_readVarInt fun slen =>
  extOk_dbind (extOk_readBytes slen) fun _ =>
  extOk_dbind (extOk_readLE 4) fun _ =>
  extOk_dpure _

theorem suffOk_decodeInput : SuffOk decodeInput :=
  suffOk_dbind (suffOk_readBytes 32) fun _ =>
  suffOk_dbind (suffOk_readLE 4) fun _ =>
  suffOk_dbind suffOk_readVarInt fun slen =>
  suffOk_dbind (suffOk_readBytes slen) fun _ =>
  suffOk_dbind (suffOk_readLE 4) fun _ =>
  suffOk_dpure _

theorem cutOk_decodeInput : CutOk decodeInput :=
  cutOk_dbind (cutOk_readBytes 32)
    (fun txid =>
      cutOk_dbind (cutOk_readLE 4)
        (fun vout =>
          cutOk_dbind cutOk_readVarInt
            (fun slen =>
              cutOk_dbind (cutOk_readBytes slen)
                (fun scr =>
                  cutOk_dbind (cutOk_readLE 4) (fun seq => cutOk_dpure _)
                    fun seq => suffOk_dpure _)
                fun scr =>
                  suffOk_dbind (suffOk_readLE 4) fun seq => suffOk_dpure _)
            fun slen =>
              suffOk_dbind (suffOk_readBytes slen) fun scr =>
                suffOk_dbind (suffOk_readLE 4) fun seq => suffOk_dpure _)
        fun vout =>
          suffOk_dbind suffOk_readVarInt fun slen =>
            suffOk_dbind (suffOk_readBytes slen) fun scr =>
              suffOk_dbind (suffOk_readLE 4) fun seq => suffOk_dpure _)
    fun txid =>
      suffOk_dbind (suffOk_readLE 4) fun vout =>
        suffOk_dbind suffOk_readVarInt fun slen =>
          suffOk_dbind (suffOk_readBytes slen) fun scr =>
            suffOk_dbind (suffOk_readLE 4) fun seq => suffOk_dpure _

theorem extOk_decodeOutput : ExtOk decodeOutput :=
  extOk_dbind (extOk_readLE 8) fun _ =>
  extOk_dbind extOk_readVarInt fun slen =>
  extOk_dbind (extOk_readBytes slen) fun _ =>
  extOk_dpure _

theorem suffOk_decodeOutput : SuffOk decodeOutput :=
  suffOk_dbind (suffOk_readLE 8) fun _ =>
  suffOk_dbind suffOk_readVarInt fun slen =>
  suffOk_dbind (suffOk_readBytes slen) fun _ =>
  suffOk_dpure _

theorem cutOk_decodeOutput : CutOk decodeOutput :=
  cutOk_dbind (cutOk_readLE 8)
    (fun v =>
      cutOk_dbind cutOk_readVarInt
        (fun slen =>
          cutOk_dbind (cutOk_readBytes slen) (fun spk => cutOk_dpure _)
            fun spk => suffOk_dpure _)
        fun slen =>
          suffOk_dbind (suffOk_readBytes slen) fun spk => suffOk_dpure _)
    fun v =>
      suffOk_dbind suffOk_readVarInt fun slen =>
        suffOk_dbind (suffOk_readBytes slen) fun spk => suffOk_dpure _

theorem readMarker_ext (xs ys : List Nat) (hne : xs ≠ []) {a : Bool}
    {rs : List Nat} (h : readMarker xs = .ok (a, rs)) :
    readMarker (xs ++ ys) = .ok (a, rs ++ ys) := by
  cases xs with
  | nil => exact absurd rfl hne
  | cons x xs' =>
      simp only [readMarker, List.cons_append] at h ⊢
      by_cases hx : x = 0
      · rw [if_pos hx] at h ⊢
        cases xs' with
        | nil => exact absurd h (by simp)
        | cons f r =>
            simp only [List.cons_append]
            dsimp only at h
            by_cases hf : f = 1
            · rw [if_pos hf] at h ⊢
              simp only [Except.ok.injEq, Prod.mk.injEq] at h ⊢
              exact ⟨h.1, by rw [h.2]⟩
            · rw [if_neg hf] at h
              exact absurd h (by simp)
      · rw [if_neg hx] at h ⊢
        simp only [Except.ok.injEq, Prod.mk.injEq] at h ⊢
        exact ⟨h.1, by rw [← h.2]; rfl⟩

theorem suffOk_readMarker : SuffOk readMarker := by
  intro xs a rs h
  cases xs with
  | nil =>
      simp only [readMarker, Except.ok.injEq, Prod.mk.injEq] at h
      rw [← h.2]
  | cons x xs' =>
      simp only [readMarker] at h
      by_cases hx : x = 0
      · rw [if_pos hx] at h
        cases xs' with
        | nil => exact absurd h (by simp)
        | cons f r =>
            dsimp only at h
            by_cases hf : f = 1
            · rw [if_pos hf] at h
              simp only [Except.ok.injEq, Prod.mk.injEq] at h
              rw [← h.2]
              simp
              omega
            · rw [if_neg hf] at h
              exact absurd h (by simp)
      · rw [if_neg hx] at h
        simp only [Except.ok.injEq, Prod.mk.injEq] at h
        rw [← h.2]

theorem cutOk_readMarker : CutOk readMarker := by
  intro xs b a rs' h
  cases xs with
  | nil =>
      simp only [List.nil_append, readMarker] at h
      by_cases hb : b = 0
      · rw [if_pos hb] at h
        exact absurd h (by simp)
      · rw [if_neg hb] at h
        simp only [Except.ok.injEq, Prod.mk.injEq] at h
        exact Or.inl ⟨[], by rw [← h.2]; rfl, by rw [← h.1]; rfl⟩
  | cons x xs' =>
      simp only [List.cons_append, readMarker] at h ⊢
      by_cases hx : x = 0
      · rw [if_pos hx] at h
        rw [if_pos hx]
        cases xs' with
        | nil =>
            simp only [List.nil_append] at h
            by_cases hb : b = 1
            · rw [if_pos hb] at h
              simp only [Except.ok.injEq, Prod.mk.injEq] at h
              exact Or.inr ⟨h.2.symm, rfl⟩
            · rw [if_neg hb] at h
              exact absurd h (by simp)
        | cons f r =>
            simp only [List.cons_append] at h
            dsimp only at h ⊢
            by_cases hf : f = 1
            · rw [if_pos hf] at h
              rw [if_pos hf]
              simp only [Except.ok.injEq, Prod.mk.injEq] at h
              exact Or.inl ⟨r, h.2.symm, by rw [← h.1]⟩
            · rw [if_neg hf] at h
              exact absurd h (by simp)
      · rw [if_neg hx] at h
        rw [if_neg hx]
        simp only [Except.ok.injEq, Prod.mk.injEq] at h
        exact Or.inl ⟨x :: xs', h.2.symm, by rw [← h.1]⟩

theorem extOk_decodeBody (v : Nat) (seg : Bool) : ExtOk (decodeBody v seg) := by
  apply extOk_dbind extOk_readVarInt; intro nin
  apply extOk_dbind (extOk_decodeList _ extOk_decodeInput nin); intro ins
  apply extOk_dbind extOk_readVarInt; intro nout
  apply extOk_dbind (extOk_decodeList _ extOk_decodeOutput nout); intro outs
  cases seg
  · simp only [Bool.false_eq_true, if_false]
    exact extOk_dbind (extOk_readLE 4) fun lt => extOk_dpure _
  · simp only [if_true]
    exact extOk_dbind (extOk_decodeList _ extOk_readWitnessStack nin) fun ws =>
      extOk_dbind (extOk_readLE 4) fun lt => extOk_dpure _

theorem suffOk_decodeBody (v : Nat) (seg : Bool) : SuffOk (decodeBody v seg) := by
  apply suffOk_dbind suffOk_readVarInt; intro nin
  apply suffOk_dbind (suffOk_decodeList _ suffOk_decodeInput nin); intro ins
  apply suffOk_dbind suffOk_readVarInt; intro nout
  apply suffOk_dbind (suffOk_decodeList _ suffOk_decodeOutput nout); intro outs
  cases seg
  · simp only [Bool.false_eq_true, if_false]
    exact suffOk_dbind (suffOk_readLE 4) fun lt => suffOk_dpure _
  · simp only [if_true]
    exact suffOk_dbind (suffOk_decodeList _ suffOk_readWitnessStack nin) fun ws =>
      suffOk_dbind (suffOk_readLE 4) fun lt => suffOk_dpure _

theorem cutOk_decodeBody (v : Nat) (seg : Bool) : CutOk (decodeBody v seg) := by
  apply cutOk_dbind cutOk_readVarInt
  · intro nin
    apply cutOk_dbind (cutOk_decodeList _ cutOk_decodeInput suffOk_decodeInput nin)
    · intro ins
      apply cutOk_dbind cutOk_readVarInt
      · intro nout
        apply cutOk_dbind (cutOk_decodeList _ cutOk_decodeOutput suffOk_decodeOutput nout)
        · intro outs
          cases seg
          · simp only [Bool.false_eq_true, if_false]
            exact cutOk_dbind (cutOk_readLE 4) (fun lt => cutOk_dpure _)
              fun lt => suffOk_dpure _
          · simp only [if_true]
            exact cutOk_dbind
              (cutOk_decodeList _ cutOk_readWitnessStack suffOk_readWitnessStack nin)
              (fun ws =>
                cutOk_dbind (cutOk_readLE 4) (fun lt => cutOk_dpure _)
                  fun lt => suffOk_dpure _)
              fun ws =>
                suffOk_dbind (suffOk_readLE 4) fun lt => suffOk_dpure _
        · intro outs
          cases seg
          · simp only [Bool.false_eq_true, if_false]
            exact suffOk_dbind (suffOk_readLE 4) fun lt => suffOk_dpure _
          · simp only [if_true]
            exact suffOk_dbind (suffOk_decodeList _ suffOk_readWitnessStack nin)
              fun ws => suffOk_dbind (suffOk_readLE 4) fun lt => suffOk_dpure _
      · intro nout
        apply suffOk_dbind (suffOk_decodeList _ suffOk_decodeOutput nout)
        intro outs
        cases seg
        · simp only [Bool.false_eq_true, if_false]
          exact suffOk_dbind (suffOk_readLE 4) fun lt => suffOk_dpure _
        · simp only [if_true]
          exact suffOk_dbind (suffOk_decodeList _ suffOk_readWitnessStack nin)
            fun ws => suffOk_dbind (suffOk_readLE 4) fun lt => suffOk_dpure _
    · intro ins
      apply suffOk_dbind suffOk_readVarInt
      intro nout
      apply suffOk_dbind (suffOk_decodeList _ suffOk_decodeOutput nout)
      intro outs
      cases seg
      · simp only [Bool.false_eq_true, if_false]
        exact suffOk_dbind (suffOk_readLE 4) fun lt => suffOk_dpure _
      · simp only [if_true]
        exact suffOk_dbind (suffOk_decodeList _ suffOk_readWitnessStack nin)
          fun ws => suffOk_dbind (suffOk_readLE 4) fun lt => suffOk_dpure _
  · intro nin
    apply suffOk_dbind (suffOk_decodeList _ suffOk_decodeInput nin)
    intro ins
    apply suffOk_dbind suffOk_readVarInt
    intro nout
    apply suffOk_dbind (suffOk_decodeList _ suffOk_decodeOutput nout)
    intro outs
    cases seg
    · simp only [Bool.false_eq_true, if_false]
      exact suffOk_dbind (suffOk_readLE 4) fun lt => suffOk_dpure _
    · simp only [if_true]
      exact suffOk_dbind (suffOk_decodeList _ suffOk_readWitnessStack nin)
        fun ws => suffOk_dbind (suffOk_readLE 4) fun lt => suffOk_dpure _

theorem decodeBody_nil (v : Nat) (seg : Bool) :
    decodeBody v seg [] = .error .TruncatedInput := rfl

theorem extOk_markerBody (v : Nat) :
    ExtOk (dbind readMarker fun seg => decodeBody v seg) := by
  intro xs ys a rs h
  unfold dbind at h ⊢
  cases hm : readMarker xs with
  | error e => rw [hm] at h; exact absurd h (by simp)
  | ok sr =>
      obtain ⟨seg, r2⟩ := sr
      rw [hm] at h
      cases xs with
      | nil =>
          simp only [readMarker, Except.ok.injEq, Prod.mk.injEq] at hm
          obtain ⟨hseg, hr2⟩ := hm
          subst hseg
          subst hr2
          have h' : decodeBody v false [] = Except.ok (a, rs) := h
          rw [decodeBody_nil] at h'
          exact absurd h' (by simp)
      | cons x xs' =>
          rw [readMarker_ext (x :: xs') ys (by simp) hm]
          exact extOk_decodeBody v seg r2 ys a rs h

theorem extOk_decodeTxCore : ExtOk decodeTxCore :=
  extOk_dbind (extOk_readLE 4) fun v => extOk_markerBody v

theorem cutOk_decodeTxCore : CutOk decodeTxCore :=
  cutOk_dbind (cutOk_readLE 4)
    (fun v =>
      cutOk_dbind cutOk_readMarker (fun seg => cutOk_decodeBody v seg)
        fun seg => suffOk_decodeBody v seg)
    fun v =>
      suffOk_dbind suffOk_readMarker fun seg => suffOk_decodeBody v seg


theorem decodeTx_ok_core {bs : List Nat} {tx : Transaction}
    (h : decodeTx bs = .ok tx) : decodeTxCore bs = .ok (tx, []) := by
  unfold decodeTx at h
  cases hc : decodeTxCore bs with
  | error e => rw [hc] at h; exact absurd h (by simp)
  | ok tr =>
      obtain ⟨tx', rest⟩ := tr
      rw [hc] at h
      cases rest with
      | nil =>
          have h' : (Except.ok tx' : Except DecodeError Transaction) = .ok tx := h
          have heq : tx' = tx := Except.ok.inj h'
          rw [heq]
      | cons r rest' => exact absurd h (by simp)

/-- C8 (amended): appending one extra byte to a successfully decoding
buffer makes decode fail with `TrailingData`, and removing the final
byte makes it fail with `TruncatedInput`.  (Removing an interior byte
carries no such guarantee — see the counterexample.) -/
theorem decodeTx_append_truncate (bs : List Nat) (tx : Transaction)
    (h : decodeTx bs = .ok tx) :
    (∀ b, decodeTx (bs ++ [b]) = .error .TrailingData) ∧
    decodeTx bs.dropLast = .error .TruncatedInput := by
  have hcore : decodeTxCore bs = .ok (tx, []) := decodeTx_ok_core h
  constructor
  · intro b
    have hext := extOk_decodeTxCore bs [b] tx [] hcore
    rw [List.nil_append] at hext
    unfold decodeTx
    rw [hext]
  · have hne : bs ≠ [] := by
      intro hnil
      rw [hnil] at hcore
      have : decodeTxCore [] = .error .TruncatedInput := rfl
      rw [this] at hcore
      exact Except.noConfusion hcore
    obtain ⟨pre, b, hb⟩ : ∃ pre b, bs = pre ++ [b] :=
      ⟨bs.dropLast, bs.getLast hne, (List.dropLast_append_getLast hne).symm⟩
    rw [hb] at hcore
    rcases cutOk_decodeTxCore pre b tx [] hcore with ⟨rs, hrs, _⟩ | ⟨_, hpre⟩
    · exact absurd hrs (by simp)
    · have hdl : bs.dropLast = pre := by rw [hb, List.dropLast_concat]
      rw [hdl]
      unfold decodeTx
      rw [hpre]

/-- A valid 60-byte one-input one-output legacy encoding. -/
def exLegacyBuf : List Nat :=
  [1, 0, 0, 0] ++ [1] ++ List.replicate 32 0 ++ [0, 0, 0, 0] ++ [0]
    ++ [0xff, 0xff, 0xff, 0xff] ++ [1] ++ List.replicate 8 0 ++ [0] ++ [0, 0, 0, 0]

/-- The transaction `exLegacyBuf` decodes to. -/
def exLegacyTx : Transaction :=
  ⟨1, [⟨⟨List.replicate 32 0, 0⟩, [], 0xffffffff, []⟩], [⟨0, []⟩], 0, false⟩

theorem decodeTx_append_truncate_witness :
    decodeTx (exLegacyBuf ++ [0]) = .error .TrailingData ∧
    decodeTx exLegacyBuf.dropLast = .error .TruncatedInput :=
  ⟨(decodeTx_append_truncate exLegacyBuf exLegacyTx rfl).1 0,
    (decodeTx_append_truncate exLegacyBuf exLegacyTx rfl).2⟩

/-- A valid 105-byte two-input encoding whose first script-sig length
uses the non-minimal 3-byte compact-integer form. -/
def c8buf : List Nat :=
  [1, 0, 0, 0] ++ [2]
    ++ List.replicate 32 0 ++ [0, 0, 0, 0] ++ [0xfd, 1, 0] ++ [0xAA] ++ [0, 0, 0, 0]
    ++ List.replicate 32 0 ++ [0, 0, 0, 2] ++ [1] ++ [0xBB] ++ [0, 0, 0, 0]
    ++ [1] ++ List.replicate 8 0 ++ [0] ++ [0, 0, 0, 0]

/-- What `c8buf` decodes to. -/
def c8txA : Transaction :=
  ⟨1,
    [⟨⟨List.replicate 32 0, 0⟩, [0xAA], 0, []⟩,
      ⟨⟨List.replicate 32 0, 0x02000000⟩, [0xBB], 0, []⟩],
    [⟨0, []⟩], 0, false⟩

/-- What `c8buf` with byte 41 removed decodes to. -/
def c8txB : Transaction :=
  ⟨1,
    [⟨⟨List.replicate 32 0, 0⟩, [0], 0xAA, []⟩,
      ⟨⟨List.replicate 32 0, 0⟩, [1, 0xBB], 0, []⟩],
    [⟨0, []⟩], 0, false⟩

/-- C8 counterexample: `c8buf` decodes successfully, byte index 41 lies
strictly before its final byte, yet removing that byte yields a buffer
that still decodes successfully (to a different transaction) — not a
truncated-input or trailing-data failure. -/
theorem decodeTx_delete_interior_byte_succeeds :
    decodeTx c8buf = .ok c8txA ∧
    41 < c8buf.length - 1 ∧
    decodeTx (c8buf.take 41 ++ c8buf.drop 42) = .ok c8txB :=
  ⟨rfl, by decide, rfl⟩

theorem dbind_ok {α β : Type} {p : Decoder α} {f : α → Decoder β} {bs : List Nat}
    {a : α} {rest : List Nat} (h : p bs = .ok (a, rest)) :
    dbind p f bs = f a rest := by
  unfold dbind
  rw [h]

theorem dbind_eq_ok {α β : Type} {p : Decoder α} {f : α → Decoder β} {bs : List Nat}
    {c : β} {rs : List Nat} (h : dbind p f bs = .ok (c, rs)) :
    ∃ a m, p bs = .ok (a, m) ∧ f a m = .ok (c, rs) := by
  unfold dbind at h
  cases hp : p bs with
  | error e => rw [hp] at h; exact absurd h (by simp)
  | ok am =>
      obtain ⟨a, m⟩ := am
      rw [hp] at h
      exact ⟨a, m, rfl, h⟩

theorem leBytes_length (n v : Nat) : (leBytes n v).length = n := by
  induction n generalizing v with
  | zero => rfl
  | succ n ih => simp [leBytes, ih]

theorem leVal_leBytes (n v : Nat) (h : v < 256 ^ n) :
    leVal (leBytes n v) = v := by
  induction n generalizing v with
  | zero =>
      simp [pow_zero] at h
      simp [leBytes, leVal, h]
  | succ n ih =>
      have hdiv : v / 256 < 256 ^ n := by
        rw [Nat.div_lt_iff_lt_mul (by norm_num)]
        rw [pow_succ] at h
        exact h
      simp only [leBytes, leVal, ih (v / 256) hdiv]
      omega

theorem leVal_lt (l : List Nat) (h : AllLt l) : leVal l < 256 ^ l.length := by
  induction l with
  | nil => simp [leVal]
  | cons b t ih =>
      have hb : b < 256 := h b (by simp)
      have ht : leVal t < 256 ^ t.length := ih fun x hx => h x (by simp [hx])
      simp only [leVal, List.length_cons, pow_succ]
      calc b + 256 * leVal t < 256 + 256 * leVal t := by omega
        _ ≤ 256 * (leVal t + 1) := by ring_nf; omega
        _ ≤ 256 * 256 ^ t.length := by
              exact Nat.mul_le_mul_left 256 (by omega)
        _ = 256 ^ t.length * 256 := by ring

theorem readBytes_exact (l rest : List Nat) :
    readBytes l.length (l ++ rest) = .ok (l, rest) := by
  unfold readBytes
  rw [if_pos (by simp)]
  rw [List.take_left, List.drop_left]

theorem readBytes_exact' (n : Nat) (l rest : List Nat) (h : l.length = n) :
    readBytes n (l ++ rest) = .ok (l, rest) := by
  rw [← h]
  exact readBytes_exact l rest

theorem readLE_leBytes (n v : Nat) (rest : List Nat) (h : v < 256 ^ n) :
    readLE n (leBytes n v ++ rest) = .ok (v, rest) := by
  unfold readLE
  rw [dbind_ok (readBytes_exact' n _ _ (leBytes_length n v))]
  unfold dpure
  rw [leVal_leBytes n v h]

theorem readVarInt_encode (n : Nat) (rest : List Nat) (h : n < 2 ^ 64) :
    readVarInt (encodeVarInt n ++ rest) = .ok (n, rest) := by
  unfold readVarInt encodeVarInt
  split_ifs with h1 h2 h3
  · have : ([n] : List Nat) ++ rest = n :: rest := rfl
    rw [this, dbind_ok (show readByte (n :: rest) = .ok (n, rest) from rfl)]
    rw [if_pos h1]
    rfl
  · rw [List.cons_append,
      dbind_ok (show readByte (0xfd :: (leBytes 2 n ++ rest)) = .ok (0xfd, _) from rfl)]
    rw [if_neg (by norm_num), if_pos rfl]
    exact readLE_leBytes 2 n rest (by norm_num at h2 ⊢; omega)
  · rw [List.cons_append,
      dbind_ok (show readByte (0xfe :: (leBytes 4 n ++ rest)) = .ok (0xfe, _) from rfl)]
    rw [if_neg (by norm_num), if_neg (by norm_num), if_pos rfl]
    exact readLE_leBytes 4 n rest (by norm_num at h3 ⊢; omega)
  · rw [List.cons_append,
      dbind_ok (show readByte (0xff :: (leBytes 8 n ++ rest)) = .ok (0xff, _) from rfl)]
    rw [if_neg (by norm_num), if_neg (by norm_num), if_neg (by norm_num)]
    exact readLE_leBytes 8 n rest (by norm_num at h ⊢; omega)

theorem decodeList_encode {α β : Type} (p : Decoder β) (enc : α → List Nat)
    (g : α → β) (l : List α) (rest : List Nat)
    (h : ∀ a ∈ l, ∀ r, p (enc a ++ r) = .ok (g a, r)) :
    decodeList l.length p ((l.map enc).flatten ++ rest) = .ok (l.map g, rest) := by
  induction l with
  | nil => rfl
  | cons a t ih =>
      simp only [List.map_cons, List.flatten_cons, List.length_cons]
      show dbind p _ _ = _
      rw [List.append_assoc,
        dbind_ok (h a (by simp) ((t.map enc).flatten ++ rest))]
      rw [dbind_ok (ih fun x hx r => h x (by simp [hx]) r)]
      rfl

/-- Numeric and length side conditions a decoded input always meets. -/
def WFTxIn (i : TxIn) : Prop :=
  i.previous_output.txid.length = 32 ∧ i.previous_output.vout < 2 ^ 32 ∧
  i.script_sig.length < 2 ^ 64 ∧ i.sequence < 2 ^ 32 ∧
  i.witness.length < 2 ^ 64 ∧ ∀ w ∈ i.witness, w.length < 2 ^ 64

/-- Numeric and length side conditions a decoded transaction always
meets; `has_witness = false` additionally forces empty witness stacks. -/
def WFTx (tx : Transaction) : Prop :=
  tx.version < 2 ^ 32 ∧ tx.lock_time < 2 ^ 32 ∧
  tx.inputs.length < 2 ^ 64 ∧ tx.outputs.length < 2 ^ 64 ∧
  (∀ i ∈ tx.inputs, WFTxIn i) ∧
  (∀ o ∈ tx.outputs, o.value < 2 ^ 64 ∧ o.script_pubkey.length < 2 ^ 64) ∧
  (tx.has_witness = false → ∀ i ∈ tx.inputs, i.witness = [])

/-- The input parser inverts the input serializer, producing the input
with an empty witness stack. -/
theorem decodeInput_encode (i : TxIn) (rest : List Nat)
    (htxid : i.previous_output.txid.length = 32)
    (hvout : i.previous_output.vout < 2 ^ 32)
    (hslen : i.script_sig.length < 2 ^ 64)
    (hseq : i.sequence < 2 ^ 32) :
    decodeInput (encodeInput i ++ rest) =
      .ok (⟨i.previous_output, i.script_sig, i.sequence, []⟩, rest) := by
  unfold decodeInput encodeInput
  simp only [List.append_assoc]
  rw [dbind_ok (readBytes_exact' 32 _ _ htxid)]
  rw [dbind_ok (readLE_leBytes 4 _ _ (by norm_num at hvout ⊢; omega))]
  rw [dbind_ok (readVarInt_encode _ _ hslen)]
  rw [dbind_ok (readBytes_exact _ _)]
  rw [dbind_ok (readLE_leBytes 4 _ _ (by norm_num at hseq ⊢; omega))]
  unfold dpure
  obtain ⟨⟨t, vo⟩, ss, sq, w⟩ := i
  rfl

/-- The output parser inverts the output serializer. -/
theorem decodeOutput_encode (o : TxOut) (rest : List Nat)
    (hv : o.value < 2 ^ 64) (hslen : o.script_pubkey.length < 2 ^ 64) :
    decodeOutput (encodeOutput o ++ rest) = .ok (o, rest) := by
  unfold decodeOutput encodeOutput
  simp only [List.append_assoc]
  rw [dbind_ok (readLE_leBytes 8 _ _ (by norm_num at hv ⊢; omega))]
  rw [dbind_ok (readVarInt_encode _ _ hslen)]
  rw [dbind_ok (readBytes_exact _ _)]
  unfold dpure
  obtain ⟨v, spk⟩ := o
  rfl

/-- The witness-item parser inverts the item serializer. -/
theorem readWitnessItem_encode (w : List Nat) (rest : List Nat)
    (hlen : w.length < 2 ^ 64) :
    readWitnessItem (encodeVarInt w.length ++ w ++ rest) = .ok (w, rest) := by
  unfold readWitnessItem
  simp only [List.append_assoc]
  rw [dbind_ok (readVarInt_encode _ _ hlen)]
  exact readBytes_exact _ _

/-- The witness-stack parser inverts the stack serializer. -/
theorem readWitnessStack_encode (ws : List (List Nat)) (rest : List Nat)
    (hlen : ws.length < 2 ^ 64) (hitems : ∀ w ∈ ws, w.length < 2 ^ 64) :
    readWitnessStack (encodeWitnessStack ws ++ rest) = .ok (ws, rest) := by
  unfold readWitnessStack encodeWitnessStack
  simp only [List.append_assoc]
  rw [dbind_ok (readVarInt_encode _ _ hlen)]
  have := decodeList_encode readWitnessItem
    (fun item => encodeVarInt item.length ++ item) id ws rest
    (fun w hw r => by
      simpa using readWitnessItem_encode w r (hitems w hw))
  rw [List.map_id] at this
  exact this

/-- Reattaching the witness stacks taken from a list of inputs to the
same inputs with stripped witnesses is the identity. -/
theorem attachWitness_strip (l : List TxIn) :
    attachWitness
      (l.map fun i => ⟨i.previous_output, i.script_sig, i.sequence, []⟩)
      (l.map fun i => i.witness) = l := by
  induction l with
  | nil => rfl
  | cons i t ih =>
      simp only [List.map_cons, attachWitness, List.zipWith_cons_cons]
      rw [show List.zipWith _ _ _ = attachWitness _ _ from rfl, ih]

/-- Stripping witnesses is the identity on inputs that have none. -/
theorem map_strip_of_no_witness (l : List TxIn)
    (h : ∀ i ∈ l, i.witness = []) :
    (l.map fun i => (⟨i.previous_output, i.script_sig, i.sequence, []⟩ : TxIn)) = l := by
  induction l with
  | nil => rfl
  | cons i t ih =>
      simp only [List.map_cons]
      rw [ih fun x hx => h x (by simp [hx])]
      have hw : i.witness = [] := h i (by simp)
      cases i with
      | mk po ss sq w =>
          have hw' : w = [] := hw
          rw [hw']

theorem readMarker_nonzero_head (x : Nat) (hx : x ≠ 0) (r : List Nat) :
    readMarker (x :: r) = .ok (false, x :: r) := by
  simp only [readMarker]
  rw [if_neg hx]

theorem readMarker_marker (r : List Nat) :
    readMarker (0x00 :: 0x01 :: r) = .ok (true, r) := rfl

theorem encodeVarInt_exists_cons (n : Nat) (hn : n ≠ 0) :
    ∃ x r, encodeVarInt n = x :: r ∧ x ≠ 0 := by
  unfold encodeVarInt
  split_ifs with h1 h2 h3
  · exact ⟨n, [], rfl, hn⟩
  · exact ⟨0xfd, leBytes 2 n, rfl, by norm_num⟩
  · exact ⟨0xfe, leBytes 4 n, rfl, by norm_num⟩
  · exact ⟨0xff, leBytes 8 n, rfl, by norm_num⟩

/-- The decoder inverts the serializer on any well-formed transaction
that has at least one input or carries the witness marker. -/
theorem encodeTx_decode (tx : Transaction) (hwf : WFTx tx)
    (hnz : tx.inputs ≠ [] ∨ tx.has_witness = true) :
    decodeTx (encodeTx tx) = .ok tx := by
  obtain ⟨v, ins, outs, lt, hw⟩ := tx
  obtain ⟨hv, hlt, hnin, hnout, hins, houts, hleg⟩ := hwf
  simp only at hv hlt hnin hnout hins houts hleg hnz
  have hinput : ∀ i ∈ ins, ∀ r, decodeInput (encodeInput i ++ r) =
      .ok (⟨i.previous_output, i.script_sig, i.sequence, []⟩, r) := by
    intro i hi r
    obtain ⟨h1, h2, h3, h4, _, _⟩ := hins i hi
    exact decodeInput_encode i r h1 h2 h3 h4
  have houtput : ∀ o ∈ outs, ∀ r, decodeOutput (encodeOutput o ++ r) = .ok (o, r) := by
    intro o ho r
    obtain ⟨h1, h2⟩ := houts o ho
    exact decodeOutput_encode o r h1 h2
  have hcore : decodeTxCore (encodeTx ⟨v, ins, outs, lt, hw⟩) =
      .ok (⟨v, ins, outs, lt, hw⟩, []) := by
    cases hw with
    | true =>
        show decodeTxCore
          (leBytes 4 v ++ [0x00, 0x01] ++ encodeVarInt ins.length
            ++ (ins.map encodeInput).flatten ++ encodeVarInt outs.length
            ++ (outs.map encodeOutput).flatten
            ++ (ins.map fun i => encodeWitnessStack i.witness).flatten
            ++ leBytes 4 lt) = _
        simp only [List.append_assoc]
        unfold decodeTxCore
        rw [dbind_ok (readLE_leBytes 4 v _ (by norm_num at hv ⊢; omega))]
        simp only [List.cons_append, List.nil_append]
        rw [dbind_ok (readMarker_marker _)]
        unfold decodeBody
        rw [dbind_ok (readVarInt_encode ins.length _ hnin)]
        rw [dbind_ok (decodeList_encode decodeInput encodeInput
          (fun i => ⟨i.previous_output, i.script_sig, i.sequence, []⟩) ins _
          fun i hi r => hinput i hi r)]
        rw [dbind_ok (readVarInt_encode outs.length _ hnout)]
        rw [dbind_ok (by
          have := decodeList_encode decodeOutput encodeOutput id outs
            ((ins.map fun i => encodeWitnessStack i.witness).flatten ++ leBytes 4 lt)
            (fun o ho r => by simpa using houtput o ho r)
          rw [List.map_id] at this
          exact this)]
        rw [if_pos rfl]
        rw [dbind_ok (decodeList_encode readWitnessStack
          (fun i => encodeWitnessStack i.witness) (fun i => i.witness) ins _
          fun i hi r => by
            obtain ⟨_, _, _, _, h5, h6⟩ := hins i hi
            exact readWitnessStack_encode i.witness r h5 h6)]
        rw [show (leBytes 4 lt : List Nat) = leBytes 4 lt ++ [] from (List.append_nil _).symm]
        rw [dbind_ok (readLE_leBytes 4 lt [] (by norm_num at hlt ⊢; omega))]
        unfold dpure
        rw [attachWitness_strip]
    | false =>
        have hne : ins ≠ [] := by
          rcases hnz with h | h
          · exact h
          · exact absurd h (by simp)
        show decodeTxCore
          (leBytes 4 v ++ encodeVarInt ins.length
            ++ (ins.map encodeInput).flatten ++ encodeVarInt outs.length
            ++ (outs.map encodeOutput).flatten ++ leBytes 4 lt) = _
        simp only [List.append_assoc]
        unfold decodeTxCore
        rw [dbind_ok (readLE_leBytes 4 v _ (by norm_num at hv ⊢; omega))]
        have hmark : readMarker (encodeVarInt ins.length
            ++ ((ins.map encodeInput).flatten ++ (encodeVarInt outs.length
            ++ ((outs.map encodeOutput).flatten ++ leBytes 4 lt))))
            = .ok (false, encodeVarInt ins.length
            ++ ((ins.map encodeInput).flatten ++ (encodeVarInt outs.length
            ++ ((outs.map encodeOutput).flatten ++ leBytes 4 lt)))) := by
          obtain ⟨x, r, hxr, hx⟩ :=
            encodeVarInt_exists_cons ins.length (by simpa using hne)
          rw [hxr, List.cons_append]
          exact readMarker_nonzero_head x hx _
        rw [dbind_ok hmark]
        unfold decodeBody
        rw [dbind_ok (readVarInt_encode ins.length _ hnin)]
        rw [dbind_ok (decodeList_encode decodeInput encodeInput
          (fun i => ⟨i.previous_output, i.script_sig, i.sequence, []⟩) ins _
          fun i hi r => hinput i hi r)]
        rw [dbind_ok (readVarInt_encode outs.length _ hnout)]
        rw [dbind_ok (by
          have := decodeList_encode decodeOutput encodeOutput id outs (leBytes 4 lt)
            (fun o ho r => by simpa using houtput o ho r)
          rw [List.map_id] at this
          exact this)]
        rw [if_neg (by simp)]
        rw [show (leBytes 4 lt : List Nat) = leBytes 4 lt ++ [] from (List.append_nil _).symm]
        rw [dbind_ok (readLE_leBytes 4 lt [] (by norm_num at hlt ⊢; omega))]
        unfold dpure
        rw [map_strip_of_no_witness ins (hleg rfl)]
  unfold decodeTx
  rw [hcore]

theorem readBytes_wf {n : Nat} {xs l rest : List Nat} (hin : AllLt xs)
    (h : readBytes n xs = .ok (l, rest)) :
    l.length = n ∧ AllLt l ∧ AllLt rest := by
  unfold readBytes at h
  split at h
  · rename_i hle
    simp only [Except.ok.injEq, Prod.mk.injEq] at h
    obtain ⟨hl, hr⟩ := h
    subst hl
    subst hr
    refine ⟨by simp [List.length_take, Nat.min_eq_left hle], ?_, ?_⟩
    · exact fun b hb => hin b (List.take_subset n xs hb)
    · exact fun b hb => hin b (List.drop_subset n xs hb)
  · exact absurd h (by simp)

theorem readByte_wf {xs : List Nat} {b : Nat} {rest : List Nat} (hin : AllLt xs)
    (h : readByte xs = .ok (b, rest)) : b < 256 ∧ AllLt rest := by
  cases xs with
  | nil => exact absurd h (by simp [readByte])
  | cons x xs' =>
      simp only [readByte, Except.ok.injEq, Prod.mk.injEq] at h
      obtain ⟨hb, hr⟩ := h
      refine ⟨hb ▸ hin x (by simp), ?_⟩
      intro c hc
      refine hin c ?_
      rw [hr]
      exact List.mem_cons_of_mem x hc

theorem readLE_wf {n : Nat} {xs : List Nat} {v : Nat} {rest : List Nat}
    (hin : AllLt xs) (h : readLE n xs = .ok (v, rest)) :
    v < 256 ^ n ∧ AllLt rest := by
  obtain ⟨l, m, h1, h2⟩ := dbind_eq_ok h
  obtain ⟨hlen, hal, ham⟩ := readBytes_wf hin h1
  simp only [dpure, Except.ok.injEq, Prod.mk.injEq] at h2
  obtain ⟨hv, hr⟩ := h2
  subst hv
  subst hr
  exact ⟨hlen ▸ leVal_lt l hal, ham⟩

theorem readVarInt_wf {xs : List Nat} {v : Nat} {rest : List Nat}
    (hin : AllLt xs) (h : readVarInt xs = .ok (v, rest)) :
    v < 2 ^ 64 ∧ AllLt rest := by
  obtain ⟨b, m, h1, h2⟩ := dbind_eq_ok h
  obtain ⟨hb, hm⟩ := readByte_wf hin h1
  split_ifs at h2 with g1 g2 g3
  · simp only [dpure, Except.ok.injEq, Prod.mk.injEq] at h2
    obtain ⟨hv, hr⟩ := h2
    subst hv
    subst hr
    exact ⟨by omega, hm⟩
  · have := readLE_wf hm h2
    exact ⟨by norm_num at this ⊢; omega, this.2⟩
  · have := readLE_wf hm h2
    exact ⟨by norm_num at this ⊢; omega, this.2⟩
  · have := readLE_wf hm h2
    exact ⟨by norm_num at this ⊢; omega, this.2⟩

theorem decodeList_wf {α : Type} {p : Decoder α} (Q : α → Prop)
    (hp : ∀ xs a rest, AllLt xs → p xs = .ok (a, rest) → Q a ∧ AllLt rest) :
    ∀ n (xs : List Nat) (l : List α) (rest : List Nat), AllLt xs →
      decodeList n p xs = .ok (l, rest) →
      l.length = n ∧ (∀ a ∈ l, Q a) ∧ AllLt rest := by
  intro n
  induction n with
  | zero =>
      intro xs l rest hin h
      simp only [decodeList, dpure, Except.ok.injEq, Prod.mk.injEq] at h
      obtain ⟨hl, hr⟩ := h
      subst hl
      subst hr
      exact ⟨rfl, by simp, hin⟩
  | succ n ih =>
      intro xs l rest hin h
      obtain ⟨a, m1, h1, h'⟩ := dbind_eq_ok h
      obtain ⟨t, m2, h2, h''⟩ := dbind_eq_ok h'
      obtain ⟨hQ, hm1⟩ := hp xs a m1 hin h1
      obtain ⟨hlen, hall, hm2⟩ := ih m1 t m2 hm1 h2
      simp only [dpure, Except.ok.injEq, Prod.mk.injEq] at h''
      obtain ⟨hl, hr⟩ := h''
      subst hl
      subst hr
      refine ⟨by simp [hlen], ?_, hm2⟩
      intro x hx
      rcases List.mem_cons.mp hx with hx | hx
      · rw [hx]; exact hQ
      · exact hall x hx

theorem decodeInput_wf {xs : List Nat} {i : TxIn} {rest : List Nat}
    (hin : AllLt xs) (h : decodeInput xs = .ok (i, rest)) :
    WFTxIn i ∧ i.witness = [] ∧ AllLt rest := by
  obtain ⟨txid, m1, h1, h'⟩ := dbind_eq_ok h
  obtain ⟨vout, m2, h2, h''⟩ := dbind_eq_ok h'
  obtain ⟨slen, m3, h3, h3'⟩ := dbind_eq_ok h''
  obtain ⟨scr, m4, h4, h4'⟩ := dbind_eq_ok h3'
  obtain ⟨seq, m5, h5, h5'⟩ := dbind_eq_ok h4'
  obtain ⟨hlen1, _, hm1⟩ := readBytes_wf hin h1
  obtain ⟨hvout, hm2⟩ := readLE_wf hm1 h2
  obtain ⟨hslen, hm3⟩ := readVarInt_wf hm2 h3
  obtain ⟨hlen4, _, hm4⟩ := readBytes_wf hm3 h4
  obtain ⟨hseq, hm5⟩ := readLE_wf hm4 h5
  simp only [dpure, Except.ok.injEq, Prod.mk.injEq] at h5'
  obtain ⟨hi, hr⟩ := h5'
  subst hi
  subst hr
  refine ⟨⟨hlen1, ?_, ?_, ?_, by simp, by simp⟩, rfl, hm5⟩
  · dsimp only
    norm_num at hvout ⊢
    omega
  · dsimp only
    omega
  · dsimp only
    norm_num at hseq ⊢
    omega

theorem decodeOutput_wf {xs : List Nat} {o : TxOut} {rest : List Nat}
    (hin : AllLt xs) (h : decodeOutput xs = .ok (o, rest)) :
    (o.value < 2 ^ 64 ∧ o.script_pubkey.length < 2 ^ 64) ∧ AllLt rest := by
  obtain ⟨v, m1, h1, h'⟩ := dbind_eq_ok h
  obtain ⟨slen, m2, h2, h''⟩ := dbind_eq_ok h'
  obtain ⟨spk, m3, h3, h3'⟩ := dbind_eq_ok h''
  obtain ⟨hv, hm1⟩ := readLE_wf hin h1
  obtain ⟨hslen, hm2⟩ := readVarInt_wf hm1 h2
  obtain ⟨hlen3, _, hm3⟩ := readBytes_wf hm2 h3
  simp only [dpure, Except.ok.injEq, Prod.mk.injEq] at h3'
  obtain ⟨ho, hr⟩ := h3'
  subst ho
  subst hr
  exact ⟨⟨by norm_num at hv ⊢; omega, by simp; omega⟩, hm3⟩

theorem readWitnessItem_wf {xs : List Nat} {w : List Nat} {rest : List Nat}
    (hin : AllLt xs) (h : readWitnessItem xs = .ok (w, rest)) :
    w.length < 2 ^ 64 ∧ AllLt rest := by
  obtain ⟨n, m1, h1, h2⟩ := dbind_eq_ok h
  obtain ⟨hn, hm1⟩ := readVarInt_wf hin h1
  obtain ⟨hlen, _, hm2⟩ := readBytes_wf hm1 h2
  exact ⟨by omega, hm2⟩

theorem readWitnessStack_wf {xs : List Nat} {ws : List (List Nat)} {rest : List Nat}
    (hin : AllLt xs) (h : readWitnessStack xs = .ok (ws, rest)) :
    (ws.length < 2 ^ 64 ∧ ∀ w ∈ ws, w.length < 2 ^ 64) ∧ AllLt rest := by
  obtain ⟨n, m1, h1, h2⟩ := dbind_eq_ok h
  obtain ⟨hn, hm1⟩ := readVarInt_wf hin h1
  obtain ⟨hlen, hall, hm2⟩ :=
    decodeList_wf (fun w => w.length < 2 ^ 64)
      (fun xs w rest hin hp => readWitnessItem_wf hin hp) n m1 ws rest hm1 h2
  exact ⟨⟨by omega, hall⟩, hm2⟩

theorem readMarker_wf {xs : List Nat} {seg : Bool} {rest : List Nat}
    (hin : AllLt xs) (h : readMarker xs = .ok (seg, rest)) : AllLt rest := by
  cases xs with
  | nil =>
      simp only [readMarker, Except.ok.injEq, Prod.mk.injEq] at h
      rw [← h.2]
      exact fun b hb => absurd hb (by simp)
  | cons x xs' =>
      simp only [readMarker] at h
      by_cases hx : x = 0
      · rw [if_pos hx] at h
        cases xs' with
        | nil => exact absurd h (by simp)
        | cons f r =>
            dsimp only at h
            by_cases hf : f = 1
            · rw [if_pos hf] at h
              simp only [Except.ok.injEq, Prod.mk.injEq] at h
              rw [← h.2]
              exact fun b hb => hin b (by simp [hb])
            · rw [if_neg hf] at h
              exact absurd h (by simp)
      · rw [if_neg hx] at h
        simp only [Except.ok.injEq, Prod.mk.injEq] at h
        rw [← h.2]
        exact hin

theorem attachWitness_mem {ins : List TxIn} {ws : List (List (List Nat))}
    {i' : TxIn} (h : i' ∈ attachWitness ins ws) :
    ∃ i ∈ ins, ∃ w ∈ ws, i' = { i with witness := w } := by
  induction ins generalizing ws with
  | nil => simp [attachWitness] at h
  | cons i t ih =>
      cases ws with
      | nil => simp [attachWitness] at h
      | cons w ws' =>
          simp only [attachWitness, List.zipWith_cons_cons, List.mem_cons] at h
          rcases h with h | h
          · exact ⟨i, by simp, w, by simp, h⟩
          · obtain ⟨a, ha, b, hb, hab⟩ := ih h
            exact ⟨a, by simp [ha], b, by simp [hb], hab⟩

theorem decodeBody_wf {v : Nat} {seg : Bool} {xs : List Nat} {tx : Transaction}
    {rest : List Nat} (hv : v < 2 ^ 32) (hin : AllLt xs)
    (h : decodeBody v seg xs = .ok (tx, rest)) : WFTx tx := by
  unfold decodeBody at h
  obtain ⟨nin, m1, h1, h'⟩ := dbind_eq_ok h
  obtain ⟨ins, m2, h2, h''⟩ := dbind_eq_ok h'
  obtain ⟨nout, m3, h3, h3'⟩ := dbind_eq_ok h''
  obtain ⟨outs, m4, h4, h4'⟩ := dbind_eq_ok h3'
  obtain ⟨hnin, hm1⟩ := readVarInt_wf hin h1
  obtain ⟨hlen2, hallin, hm2⟩ :=
    decodeList_wf (fun i => WFTxIn i ∧ i.witness = [])
      (fun xs i rest hin hp =>
        ⟨⟨(decodeInput_wf hin hp).1, (decodeInput_wf hin hp).2.1⟩,
          (decodeInput_wf hin hp).2.2⟩) nin m1 ins m2 hm1 h2
  obtain ⟨hnout, hm3⟩ := readVarInt_wf hm2 h3
  obtain ⟨hlen4, hallout, hm4⟩ :=
    decodeList_wf (fun o => o.value < 2 ^ 64 ∧ o.script_pubkey.length < 2 ^ 64)
      (fun xs o rest hin hp => decodeOutput_wf hin hp) nout m3 outs m4 hm3 h4
  cases seg with
  | false =>
      rw [if_neg (by simp)] at h4'
      obtain ⟨lt, m5, h5, h5'⟩ := dbind_eq_ok h4'
      obtain ⟨hlt, hm5⟩ := readLE_wf hm4 h5
      simp only [dpure, Except.ok.injEq, Prod.mk.injEq] at h5'
      obtain ⟨htx, hr⟩ := h5'
      rw [← htx]
      refine ⟨hv, by norm_num at hlt ⊢; omega, by dsimp only; omega,
        by dsimp only; omega, ?_, ?_, ?_⟩
      · exact fun i hi => (hallin i hi).1
      · exact fun o ho => hallout o ho
      · exact fun _ i hi => (hallin i hi).2
  | true =>
      rw [if_pos rfl] at h4'
      obtain ⟨ws, m5, h5, h5'⟩ := dbind_eq_ok h4'
      obtain ⟨hlen5, hallws, hm5⟩ :=
        decodeList_wf (fun ws => ws.length < 2 ^ 64 ∧ ∀ w ∈ ws, w.length < 2 ^ 64)
          (fun xs w rest hin hp => readWitnessStack_wf hin hp) nin m4 ws m5 hm4 h5
      obtain ⟨lt, m6, h6, h6'⟩ := dbind_eq_ok h5'
      obtain ⟨hlt, hm6⟩ := readLE_wf hm5 h6
      simp only [dpure, Except.ok.injEq, Prod.mk.injEq] at h6'
      obtain ⟨htx, hr⟩ := h6'
      rw [← htx]
      refine ⟨hv, by norm_num at hlt ⊢; omega, ?_, by dsimp only; omega, ?_, ?_, ?_⟩
      · dsimp only
        have : (attachWitness ins ws).length ≤ ins.length := by
          simp [attachWitness]
        omega
      · intro i' hi'
        obtain ⟨i, hi, w, hw, hiw⟩ := attachWitness_mem hi'
        have hwf : WFTxIn i := (hallin i hi).1
        unfold WFTxIn at hwf
        obtain ⟨w1, w2, w3, w4, _, _⟩ := hwf
        obtain ⟨hwlen, hwitems⟩ := hallws w hw
        rw [hiw]
        exact ⟨w1, w2, w3, w4, hwlen, hwitems⟩
      · exact fun o ho => hallout o ho
      · intro hcontra
        exact absurd hcontra (by simp)

theorem decodeTx_wf (bs : List Nat) (tx : Transaction) (hin : AllLt bs)
    (h : decodeTx bs = .ok tx) : WFTx tx := by
  have hcore : decodeTxCore bs = .ok (tx, []) := decodeTx_ok_core h
  unfold decodeTxCore at hcore
  obtain ⟨v, m1, h1, h'⟩ := dbind_eq_ok hcore
  obtain ⟨seg, m2, h2, h''⟩ := dbind_eq_ok h'
  obtain ⟨hv, hm1⟩ := readLE_wf hin h1
  have hm2 : AllLt m2 := readMarker_wf hm1 h2
  exact decodeBody_wf (by norm_num at hv ⊢; omega) hm2 h''

/-- C7 counterexample buffer: a zero-input transaction encoded with a
non-minimal 3-byte compact integer for the input count. -/
def c7buf : List Nat :=
  [1, 0, 0, 0] ++ [0xfd, 0, 0] ++ [1] ++ List.replicate 8 0 ++ [0] ++ [0, 0, 0, 0]

/-- What `c7buf` decodes to: no inputs, one output, no witness marker. -/
def c7tx : Transaction := ⟨1, [], [⟨0, []⟩], 0, false⟩

/-- C7 counterexample: `c7buf` decodes successfully, but re-serializing
the resulting transaction with minimal compact integers and decoding
again does not return the original transaction — the minimal zero input
count collides with the witness-marker byte. -/
theorem decodeTx_roundtrip_fails_zero_inputs :
    decodeTx c7buf = .ok c7tx ∧ decodeTx (encodeTx c7tx) ≠ .ok c7tx := by
  refine ⟨rfl, ?_⟩
  intro hcontra
  have h2 : decodeTx (encodeTx c7tx) = .error .TrailingData := rfl
  rw [h2] at hcontra
  exact Except.noConfusion hcontra

/-- C7 (amended): decoding a byte buffer and re-serializing the result
with minimal compact integers round-trips, provided the decoded
transaction has at least one input or carries the witness marker.
(A zero-input transaction reached through a non-minimal compact integer
does not round-trip — see the counterexample.) -/
theorem decodeTx_roundtrip (bs : List Nat) (tx : Transaction)
    (hbytes : AllLt bs) (h : decodeTx bs = .ok tx)
    (hnz : tx.inputs ≠ [] ∨ tx.has_witness = true) :
    decodeTx (encodeTx tx) = .ok tx :=
  encodeTx_decode tx (decodeTx_wf bs tx hbytes h) hnz

theorem decodeTx_roundtrip_witness :
    decodeTx (encodeTx exLegacyTx) = .ok exLegacyTx :=
  decodeTx_roundtrip exLegacyBuf exLegacyTx (by decide) rfl (Or.inl (by decide))

/-- C6: for every decoded transaction the size metrics satisfy
`weight = 3 * base_size + total_size`, `virtual_size = ceil(weight/4)`
(expressed by the two bounding inequalities), and `total_size =
base_size` when there is no witness data. -/
theorem size_metrics_laws (bs : List Nat) (tx : Transaction)
    (h : decodeTx bs = .ok tx) :
    weight tx = 3 * base_size tx + total_size tx ∧
    weight tx ≤ 4 * virtual_size tx ∧
    4 * virtual_size tx < weight tx + 4 ∧
    (tx.has_witness = false → total_size tx = base_size tx) := by
  refine ⟨by unfold weight; ring, ?_, ?_, ?_⟩
  · unfold virtual_size
    omega
  · unfold virtual_size
    omega
  · intro hw
    unfold total_size base_size encodeTx
    rw [hw]
    simp

theorem size_metrics_laws_witness :
    weight exLegacyTx = 3 * base_size exLegacyTx + total_size exLegacyTx ∧
    weight exLegacyTx ≤ 4 * virtual_size exLegacyTx ∧
    4 * virtual_size exLegacyTx < weight exLegacyTx + 4 ∧
    (exLegacyTx.has_witness = false →
      total_size exLegacyTx = base_size exLegacyTx) :=
  size_metrics_laws exLegacyBuf exLegacyTx rfl

/-- Swap the case of one hex-letter character, fixing everything else. -/
def toggleHexCase (c : Char) : Char :=
  match c with
  | 'a' => 'A'
  | 'b' => 'B'
  | 'c' => 'C'
  | 'd' => 'D'
  | 'e' => 'E'
  | 'f' => 'F'
  | 'A' => 'a'
  | 'B' => 'b'
  | 'C' => 'c'
  | 'D' => 'd'
  | 'E' => 'e'
  | 'F' => 'f'
  | c => c

theorem hexDigitVal_toggle (c : Char) :
    hexDigitVal (toggleHexCase c) = hexDigitVal c := by
  unfold toggleHexCase
  split <;> first | rfl | decide

theorem isWs_toggle (c : Char) : isWs (toggleHexCase c) = isWs c := by
  unfold toggleHexCase
  split <;> first | rfl | decide

theorem dropWhile_eq_nil_of_all {p : Char → Bool} {l : List Char}
    (h : ∀ c ∈ l, p c = true) : l.dropWhile p = [] := by
  induction l with
  | nil => rfl
  | cons c t ih =>
      rw [List.dropWhile_cons, if_pos (h c (by simp))]
      exact ih fun x hx => h x (by simp [hx])

theorem dropWhile_append_all {p : Char → Bool} {a : List Char} (b : List Char)
    (h : ∀ c ∈ a, p c = true) : (a ++ b).dropWhile p = b.dropWhile p := by
  induction a with
  | nil => rfl
  | cons c t ih =>
      rw [List.cons_append, List.dropWhile_cons, if_pos (h c (by simp))]
      exact ih fun x hx => h x (by simp [hx])

theorem dropWhile_append_of_ne_nil {p : Char → Bool} {a : List Char}
    (b : List Char) (h : a.dropWhile p ≠ []) :
    (a ++ b).dropWhile p = a.dropWhile p ++ b := by
  induction a with
  | nil => exact absurd rfl h
  | cons c t ih =>
      rw [List.cons_append, List.dropWhile_cons, List.dropWhile_cons]
      rw [List.dropWhile_cons] at h
      by_cases hc : p c = true
      · rw [if_pos hc] at h
        rw [if_pos hc, if_pos hc]
        exact ih h
      · rw [if_neg hc, if_neg hc]
        rw [List.cons_append]

theorem all_of_dropWhile_eq_nil {p : Char → Bool} :
    ∀ {l : List Char}, l.dropWhile p = [] → ∀ c ∈ l, p c = true := by
  intro l
  induction l with
  | nil => intro _ c hc; simp at hc
  | cons a t ih =>
      intro h c hc
      rw [List.dropWhile_cons] at h
      by_cases ha : p a = true
      · rw [if_pos ha] at h
        rcases List.mem_cons.mp hc with rfl | hc'
        · exact ha
        · exact ih h c hc'
      · rw [if_neg ha] at h
        exact absurd h (by simp)

/-- Trimming ignores any all-whitespace prefix and suffix. -/
theorem trimChars_ws (w s w' : List Char)
    (hw : ∀ c ∈ w, isWs c = true) (hw' : ∀ c ∈ w', isWs c = true) :
    trimChars (w ++ s ++ w') = trimChars s := by
  unfold trimChars
  rw [List.append_assoc, dropWhile_append_all (s ++ w') hw]
  by_cases hd : s.dropWhile isWs = []
  · rw [dropWhile_append_all w' (all_of_dropWhile_eq_nil hd)]
    rw [dropWhile_eq_nil_of_all hw', hd]
  · rw [dropWhile_append_of_ne_nil w' hd]
    rw [List.reverse_append]
    rw [dropWhile_append_all (s.dropWhile isWs).reverse
      fun c hc => hw' c (List.mem_reverse.mp hc)]

theorem forall₂_dropWhile {R : Char → Char → Prop} {p q : Char → Bool}
    (hpq : ∀ a b, R a b → q b = p a) :
    ∀ {l l' : List Char}, List.Forall₂ R l l' →
      List.Forall₂ R (l.dropWhile p) (l'.dropWhile q) := by
  intro l l' h
  induction h with
  | nil => simp
  | cons hab htail ih =>
      rename_i a b t t'
      rw [List.dropWhile_cons, List.dropWhile_cons, hpq a b hab]
      by_cases hpa : p a = true
      · rw [if_pos hpa, if_pos hpa]
        exact ih
      · rw [if_neg hpa, if_neg hpa]
        exact List.Forall₂.cons hab htail

theorem forall₂_reverse {R : Char → Char → Prop} :
    ∀ {l l' : List Char}, List.Forall₂ R l l' →
      List.Forall₂ R l.reverse l'.reverse := by
  intro l l' h
  induction h with
  | nil => simp
  | cons hab htail ih =>
      simp only [List.reverse_cons]
      exact List.rel_append ih (List.Forall₂.cons hab List.Forall₂.nil)

/-- Hex parsing is determined by the digit values of the characters. -/
theorem hexPairs_congr :
    ∀ (s s' : List Char),
      List.Forall₂ (fun a b => hexDigitVal b = hexDigitVal a) s s' →
      hexPairs s' = hexPairs s := by
  have main : ∀ n (s s' : List Char), s.length ≤ n →
      List.Forall₂ (fun a b => hexDigitVal b = hexDigitVal a) s s' →
      hexPairs s' = hexPairs s := by
    intro n
    induction n with
    | zero =>
        intro s s' hlen h
        have hs : s = [] := List.length_eq_zero.mp (Nat.le_zero.mp hlen)
        subst hs
        cases h
        rfl
    | succ n ih =>
        intro s s' hlen h
        cases h with
        | nil => rfl
        | cons hc htail =>
            rename_i a b t t'
            cases htail with
            | nil => rfl
            | cons hc2 htail2 =>
                rename_i a2 b2 t2 t2'
                have hrec := ih t2 t2' (by simp at hlen; omega) htail2
                show hexPairs (b :: b2 :: t2') = hexPairs (a :: a2 :: t2)
                simp only [hexPairs]
                rw [hc, hc2, hrec]
  exact fun s s' h => main s.length s s' le_rfl h

/-- C9: the decode entry point is invariant under surrounding whitespace
and under changing the case of hex-letter characters. -/
theorem decode_transaction_ws_case (w w' : List Char) (s s' : String)
    (hw : ∀ c ∈ w, isWs c = true) (hw' : ∀ c ∈ w', isWs c = true)
    (hcase : List.Forall₂ (fun a b => b = a ∨ b = toggleHexCase a) s.data s'.data) :
    decode_transaction (String.mk (w ++ s.data ++ w')) = decode_transaction s ∧
    decode_transaction s' = decode_transaction s := by
  constructor
  · show decode_transaction_chars (w ++ s.data ++ w') = decode_transaction_chars s.data
    unfold decode_transaction_chars
    rw [trimChars_ws w s.data w' hw hw']
  · show decode_transaction_chars s'.data = decode_transaction_chars s.data
    have hE : List.Forall₂
        (fun a b => isWs b = isWs a ∧ hexDigitVal b = hexDigitVal a)
        s.data s'.data := by
      refine hcase.imp ?_
      intro a b hab
      rcases hab with rfl | rfl
      · exact ⟨rfl, rfl⟩
      · exact ⟨isWs_toggle a, hexDigitVal_toggle a⟩
    have htrim : List.Forall₂
        (fun a b => isWs b = isWs a ∧ hexDigitVal b = hexDigitVal a)
        (trimChars s.data) (trimChars s'.data) := by
      unfold trimChars
      exact forall₂_reverse (forall₂_dropWhile (fun a b hab => hab.1)
        (forall₂_reverse (forall₂_dropWhile (fun a b hab => hab.1) hE)))
    have hpairs : hexPairs (trimChars s'.data) = hexPairs (trimChars s.data) :=
      hexPairs_congr _ _ (htrim.imp fun a b hab => hab.2)
    unfold decode_transaction_chars
    rw [hpairs]

theorem decode_transaction_ws_case_witness :
    decode_transaction (String.mk ([' '] ++ "ab".data ++ ['\n'])) =
      decode_transaction "ab" ∧
    decode_transaction "AB" = decode_transaction "ab" :=
  decode_transaction_ws_case [' '] ['\n'] "ab" "AB" (by decide) (by decide)
    (List.Forall₂.cons (Or.inr (by decide))
      (List.Forall₂.cons (Or.inr (by decide)) List.Forall₂.nil))
